import Mathlib

/-!
Shallow embedding of the multi-head ingest/retrieval core of
`gpudb_multihead_io.py` (the Python 3 code paths): the record-key image
builder, the shard router, the per-worker record queue, and the ingestor
insert/flush control flow, together with theorems settling the frozen
claims about them.
-/

namespace GpudbMultihead

/-- Errors raised as `GPUdbException` by `_RecordKey` appenders. -/
inductive KeyErr where
  | charTooLong
  | bufferOverflow
  deriving DecidableEq, Repr

/-- Embedding of the buffer-facing state of `_RecordKey`: `_buffer_size`,
`_buffer_value` (a byte list) and `_is_valid`.  The two hash fields are
computed by the external Murmur3 collaborator and are modelled separately
(see `route`). -/
structure RecordKey where
  buffer_size : Nat
  buffer_value : List Nat
  is_valid : Bool
  deriving DecidableEq, Repr

/-- A fresh `_RecordKey(buffer_size)`: empty buffer, valid. -/
def mkRecordKey (size : Nat) : RecordKey :=
  ⟨size, [], true⟩

/-- The test of `_RecordKey.__will_buffer_overflow`: adding `n` more bytes
would exceed `_buffer_size`. -/
def willOverflow (rk : RecordKey) (n : Nat) : Bool :=
  rk.buffer_size < rk.buffer_value.length + n

/-- Embedding of `_RecordKey.add_charN` (Python 3 path) for values whose
characters are ASCII, so that the UTF-8 encoding of the reversed string is
the reversed byte list; the value is the byte list of the string, `none`
standing for Python `None`.  The source raises `GPUdbException` when a
non-empty value is longer than `N` (before anything is written) and when
the buffer would overflow; both are modelled as `Except.error`.  Otherwise
it appends `N - len` zero bytes and then the bytes reversed (for `none`,
`N` zero bytes). -/
def add_charN (rk : RecordKey) (val : Option (List Nat)) (N : Nat) :
    Except KeyErr RecordKey :=
  match val with
  | none =>
      if willOverflow rk N then .error .bufferOverflow
      else .ok { rk with buffer_value := rk.buffer_value ++ List.replicate N 0 }
  | some v =>
      if v ≠ [] ∧ N < v.length then .error .charTooLong
      else if willOverflow rk N then .error .bufferOverflow
      else .ok { rk with buffer_value :=
        rk.buffer_value ++ (List.replicate (N - v.length) 0 ++ v.reverse) }

/-- One-to-three decimal digits, as matched by a `\d{1,3}` group of the
source regular expression `_ipv4_regex`, with the numeric value it
denotes. -/
def digits1to3 (s : List Char) : Option Nat :=
  if s ≠ [] ∧ s.length ≤ 3 ∧ s.all Char.isDigit then
    some (s.foldl (fun n c => 10 * n + (c.toNat - 48)) 0)
  else none

/-- Split a character list at every dot, as the anchored `_ipv4_regex`
does between its four groups. -/
def splitDot : List Char → List (List Char)
  | [] => [[]]
  | c :: rest =>
      if c = '.' then [] :: splitDot rest
      else
        match splitDot rest with
        | [] => [[c]]
        | g :: gs => (c :: g) :: gs

/-- The anchored match of `_ipv4_regex` against the whole value: exactly
four dot-separated groups of one to three digits. -/
def ipv4Match (s : List Char) : Option (Nat × Nat × Nat × Nat) :=
  match splitDot s with
  | [a, b, c, d] =>
      match digits1to3 a, digits1to3 b, digits1to3 c, digits1to3 d with
      | some x, some y, some z, some w => some (x, y, z, w)
      | _, _, _, _ => none
  | _ => none

/-- The four bytes `struct.pack("=I", v)` produces on a little-endian
host: the value in little-endian byte order. -/
def packLE4 (v : Nat) : List Nat :=
  [v % 256, v / 2 ^ 8 % 256, v / 2 ^ 16 % 256, v / 2 ^ 24 % 256]

/-- Embedding of `_RecordKey.add_ipv4` (the value as a character list,
`none` standing for Python `None`).  A malformed or out-of-range value
writes four zero bytes and clears `_is_valid`; a well-formed `A.B.C.D`
writes `(A<<24)|(B<<16)|(C<<8)|D` little-endian. -/
def add_ipv4 (rk : RecordKey) (val : Option (List Char)) :
    Except KeyErr RecordKey :=
  if willOverflow rk 4 then .error .bufferOverflow
  else
    match val with
    | none => .ok { rk with buffer_value := rk.buffer_value ++ packLE4 0 }
    | some s =>
        match ipv4Match s with
        | none =>
            .ok { rk with buffer_value := rk.buffer_value ++ packLE4 0,
                          is_valid := false }
        | some (a, b, c, d) =>
            if 255 < a ∨ 255 < b ∨ 255 < c ∨ 255 < d then
              .ok { rk with buffer_value := rk.buffer_value ++ packLE4 0,
                            is_valid := false }
            else
              .ok { rk with buffer_value := rk.buffer_value ++
                      packLE4 (a <<< 24 ||| b <<< 16 ||| c <<< 8 ||| d) }

/-- Interpretation of a 64-bit pattern as the signed value that
`mmh3.hash64` returns for it (two's complement). -/
def toSigned64 (bits : Nat) : Int :=
  if bits < 2 ^ 63 then (bits : Int) else (bits : Int) - 2 ^ 64

/-- The routing index computed inside `_RecordKey.route`:
`abs(self._routing_hash) % len(routing_table)` (Python `abs` on an exact
signed integer, i.e. the absolute value). -/
def routingIndex (routing_hash : Int) (table_len : Nat) : Nat :=
  routing_hash.natAbs % table_len

/-- Embedding of `_RecordKey.route`: `0` for an empty routing table,
otherwise the table entry at the routing index.  (The source's
out-of-bounds re-check cannot fire, the index being a remainder by the
length; the `getD` default is likewise never reached.) -/
def route (routing_hash : Int) (routing_table : List Int) : Int :=
  if routing_table = [] then 0
  else routing_table.getD (routingIndex routing_hash routing_table.length) 0

/-- The key-facing view the queue layer takes of a built `_RecordKey`: its
`hash_code` (computed by the Murmur3 collaborator, an exact signed
integer) and its `is_valid` flag. -/
structure RKey where
  hash_code : Int
  is_valid : Bool
  deriving DecidableEq, Repr

/-- Embedding of `_WorkerQueue` (URL and client handle dropped).
`pk_map` is `primary_key_to_queue_index_map` as an association list from
hash code to queue index; `[]` stands for both Python `None` (no primary
key) and the empty dict. -/
@[ext]
structure WorkerQueue (α : Type) where
  capacity : Nat
  has_primary_key : Bool
  update_on_existing_pk : Bool
  record_queue : List α
  pk_map : List (Int × Nat)
  deriving DecidableEq

/-- A freshly constructed `_WorkerQueue`: empty queue, empty index. -/
def freshQ (α : Type) (cap : Nat) (hasPK upd : Bool) : WorkerQueue α :=
  ⟨cap, hasPK, upd, [], []⟩

/-- Dictionary access `map[h]` / the test `h in map`. -/
def lookupH (h : Int) : List (Int × Nat) → Option Nat
  | [] => none
  | (h', i) :: rest => if h' = h then some i else lookupH h rest

/-- Embedding of `_WorkerQueue.flush`: hand back the old queue, reset the
queue and clear the primary-key index. -/
def flushQ {α : Type} (wq : WorkerQueue α) : List α × WorkerQueue α :=
  (wq.record_queue, { wq with record_queue := [], pk_map := [] })

/-- The state mutation performed by `_WorkerQueue.insert` before its
capacity check: in-place update or indexed append when the table has a
primary key and the key is valid (with the duplicate silently skipped
when `update_on_existing_pk` is off), plain append otherwise.  The
appended index recorded in the map is `old_queue_length`, the length
before the append, as in the source. -/
def qinsertState {α : Type} (wq : WorkerQueue α) (record : α) (key : RKey) :
    WorkerQueue α :=
  let old_queue_length := wq.record_queue.length
  if wq.has_primary_key ∧ key.is_valid then
    if wq.update_on_existing_pk then
      match lookupH key.hash_code wq.pk_map with
      | some key_index =>
          { wq with record_queue := wq.record_queue.set key_index record }
      | none =>
          { wq with record_queue := wq.record_queue ++ [record],
                    pk_map := (key.hash_code, old_queue_length) :: wq.pk_map }
    else
      match lookupH key.hash_code wq.pk_map with
      | some _ => wq
      | none =>
          { wq with record_queue := wq.record_queue ++ [record],
                    pk_map := (key.hash_code, old_queue_length) :: wq.pk_map }
  else
    { wq with record_queue := wq.record_queue ++ [record] }

/-- Does this insert hit the duplicate-primary-key early `return None` of
`_WorkerQueue.insert`? -/
def isDup {α : Type} (wq : WorkerQueue α) (key : RKey) : Bool :=
  wq.has_primary_key && key.is_valid && !wq.update_on_existing_pk
    && (lookupH key.hash_code wq.pk_map).isSome

/-- Embedding of `_WorkerQueue.insert`: apply the state mutation, then
return the flushed batch when the queue has reached capacity and `none`
otherwise; a duplicate primary key without `update_on_existing_pk`
returns `none` with the state untouched (the early return skips the
capacity check). -/
def qinsert {α : Type} (wq : WorkerQueue α) (record : α) (key : RKey) :
    Option (List α) × WorkerQueue α :=
  if isDup wq key then (none, wq)
  else
    let wq1 := qinsertState wq record key
    if wq1.record_queue.length = wq1.capacity then
      let fl := flushQ wq1
      (some fl.1, fl.2)
    else (none, wq1)

/-- One call made against a worker queue: an insert (the record, as an
opaque identifier, plus the primary key the caller built for it) or an
explicit flush. -/
inductive QOp where
  | ins (record : Nat) (key : RKey)
  | fl
  deriving DecidableEq

/-- Apply one call to the queue.  The stored record is paired with its
key so that the theorems can speak about the key a resident record was
inserted with; the pair plays the role of the opaque record object the
source stores. -/
def stepQ (wq : WorkerQueue (Nat × RKey)) (op : QOp) :
    Option (List (Nat × RKey)) × WorkerQueue (Nat × RKey) :=
  match op with
  | .ins r k => qinsert wq (r, k) k
  | .fl =>
      let fl := flushQ wq
      (some fl.1, fl.2)

/-- Run a sequence of calls, collecting every batch the queue returns
(capacity-triggered and explicit). -/
def runQ (wq : WorkerQueue (Nat × RKey)) :
    List QOp → List (List (Nat × RKey)) × WorkerQueue (Nat × RKey)
  | [] => ([], wq)
  | op :: ops =>
      let st := stepQ wq op
      let rest := runQ st.2 ops
      (match st.1 with
       | some batch => batch :: rest.1
       | none => rest.1, rest.2)

/-- Replay of a segment of inserts through the state mutation alone
(capacity never reached, no flush): the queue state produced by the
calls made since the queue was last empty. -/
def buildQ (cap : Nat) (hasPK upd : Bool) (seg : List (Nat × RKey)) :
    WorkerQueue (Nat × RKey) :=
  seg.foldl (fun wq p => qinsertState wq p p.2) (freshQ (Nat × RKey) cap hasPK upd)

/-- The last record of the segment inserted with a valid key of hash
`h`, if any. -/
def lastValidWith (h : Int) (seg : List (Nat × RKey)) : Option (Nat × RKey) :=
  seg.foldl (fun acc p => if p.2.is_valid ∧ p.2.hash_code = h then some p else acc)
    none

/-- The routing-table setup shared verbatim by `GPUdbIngestor.__init__`
and `RecordRetriever.__init__`: subtract one from every shard rank
returned by `admin_show_shards`, then raise iff some entry is strictly
greater than `num_ranks` (the number of workers). -/
def setRoutingTable (shard_ranks : List Int) (num_ranks : Nat) :
    Except String (List Int) :=
  let table := shard_ranks.map (fun rank => rank - 1)
  if table.all (fun e => e ≤ (num_ranks : Int)) then .ok table
  else .error "Not enough worker URLs specified."

/-- A column of a record type: name, Avro type and property list (only
the pieces `_RecordKeyBuilder.__init__` reads). -/
structure Column where
  name : String
  ctype : String
  props : List String
  deriving DecidableEq

/-- The property tag the key-selection loop matches for the builder's
role. -/
def roleTag (is_primary_key : Bool) : String :=
  if is_primary_key then "primary_key" else "shard_key"

/-- The explicit key columns collected by the loop of
`_RecordKeyBuilder.__init__`: `(index, name, type)` for each column whose
property set carries the role's tag, in declaration order. -/
def explicitKeyCols (cols : List Column) (is_primary_key : Bool) :
    List (Nat × String × String) :=
  (cols.enum.filter (fun p => roleTag is_primary_key ∈ p.2.props)).map
    (fun p => (p.1, p.2.name, p.2.ctype))

/-- The column names whose joint presence makes a record type a
track-type table. -/
def trackTypeSpecialColumns : List String :=
  ["TRACKID", "TIMESTAMP", "x", "y"]

/-- The key selection of `_RecordKeyBuilder.__init__`: the routing key
indices and the key schema field descriptors (name/type pairs).  In the
track-type branch the source reads the loop-leftover `column_name` and
`column_type` variables — those of the last iterated column — when it
synthesizes the TRACKID key descriptor, and that is embedded as written. -/
def builderKeys (cols : List Column) (is_primary_key : Bool) :
    Except String (List Nat × List (String × String)) :=
  let explicit := explicitKeyCols cols is_primary_key
  let indices := explicit.map (fun p => p.1)
  let fields := explicit.map (fun p => (p.2.1, p.2.2))
  let names := cols.map (fun c => c.name)
  let is_track_type := trackTypeSpecialColumns.all (fun c => c ∈ names)
  if ¬is_primary_key ∧ is_track_type then
    match cols.getLast? with
    | none => .ok (indices, fields)
    | some lastCol =>
        let track_id_index := names.indexOf "TRACKID"
        if indices = [] then
          .ok (indices ++ [track_id_index], fields ++ [(lastCol.name, lastCol.ctype)])
        else if indices ≠ [track_id_index] then
          .error "Cannot have a shard key other than TRACKID for track-type tables."
        else .ok (indices, fields)
  else .ok (indices, fields)

/-- Embedding of the `GPUdbIngestor` state that `insert_record`,
`insert_records` and `__flush` use: the per-worker queues and the running
`count_inserted` / `count_updated` totals.  `committed` is specification
ghost state: the concatenation of every batch whose `/insert/records`
call returned OK — exactly the batches whose counts were added to the
totals. -/
structure Ingestor where
  queues : List (WorkerQueue Nat)
  count_inserted : Nat
  count_updated : Nat
  committed : List Nat
  deriving DecidableEq

/-- Embedding of `GPUdbIngestor.__flush`: a no-op on an empty batch; on a
reply whose status is not OK (modelled by the client oracle returning
`none`) an `InsertionException` carrying the batch is raised (the first
component); on OK the reported counts are added.  The client oracle maps
a worker index and a batch to `some (count_inserted, count_updated)` or
`none`. -/
def ingFlush (client : Nat → List Nat → Option (Nat × Nat)) (ing : Ingestor)
    (worker : Nat) (batch : List Nat) : Option (List Nat) × Ingestor :=
  if batch = [] then (none, ing)
  else
    match client worker batch with
    | none => (some batch, ing)
    | some counts =>
        (none, { ing with count_inserted := ing.count_inserted + counts.1,
                          count_updated := ing.count_updated + counts.2,
                          committed := ing.committed ++ batch })

/-- Embedding of `GPUdbIngestor.insert_record` with record encoding
elided (the encoded form of a record is identified with the record,
an opaque `Nat`).  `routeOf` models building the shard key and routing
it through the table (`_RecordKeyBuilder.build` plus `_RecordKey.route`),
and also stands for the uniform random worker choice made when no shard
key exists; `pkKeyOf` models building the primary key.  The first
component is the payload of a raised `InsertionException`, if any.
A `routeOf` value outside the queue list (an `IndexError` in the source)
is outside the model: the theorems assume it is in range. -/
def insertRecord (routeOf : Nat → Nat) (pkKeyOf : Nat → RKey)
    (client : Nat → List Nat → Option (Nat × Nat))
    (ing : Ingestor) (record : Nat) : Option (List Nat) × Ingestor :=
  let worker_index := routeOf record
  let wq := ing.queues.getD worker_index (freshQ Nat 1 false false)
  let ins := qinsert wq record (pkKeyOf record)
  let ing1 := { ing with queues := ing.queues.set worker_index ins.2 }
  match ins.1 with
  | none => (none, ing1)
  | some batch => ingFlush client ing1 worker_index batch

/-- Python `records.index(record)`: index of the first occurrence. -/
def indexOfN (x : Nat) : List Nat → Nat
  | [] => 0
  | y :: ys => if y = x then 0 else indexOfN x ys + 1

/-- The loop of `GPUdbIngestor.insert_records` over the still-unprocessed
suffix: on a raised `InsertionException` its payload is extended with
`records[records.index(record):]` — the submitted list from the first
occurrence of the failing record — and re-raised. -/
def insertRecordsFrom (routeOf : Nat → Nat) (pkKeyOf : Nat → RKey)
    (client : Nat → List Nat → Option (Nat × Nat)) (records : List Nat) :
    Ingestor → List Nat → Option (List Nat) × Ingestor
  | ing, [] => (none, ing)
  | ing, r :: rest =>
      match insertRecord routeOf pkKeyOf client ing r with
      | (some batch, ing') =>
          (some (batch ++ records.drop (indexOfN r records)), ing')
      | (none, ing') => insertRecordsFrom routeOf pkKeyOf client records ing' rest

/-- Embedding of `GPUdbIngestor.insert_records`. -/
def insertRecords (routeOf : Nat → Nat) (pkKeyOf : Nat → RKey)
    (client : Nat → List Nat → Option (Nat × Nat))
    (ing : Ingestor) (records : List Nat) : Option (List Nat) × Ingestor :=
  insertRecordsFrom routeOf pkKeyOf client records ing records

/-- The primary-key index invariant of a queue storing key-annotated
records: every map entry points at a valid resident record of that hash,
every valid resident record is indexed at its position, and the map is
functional. -/
def QInv (wq : WorkerQueue (Nat × RKey)) : Prop :=
  (∀ h i, (h, i) ∈ wq.pk_map →
      ∃ p, wq.record_queue[i]? = some p ∧ p.2.is_valid = true ∧
        p.2.hash_code = h) ∧
  (∀ i p, wq.record_queue[i]? = some p → p.2.is_valid = true →
      (p.2.hash_code, i) ∈ wq.pk_map) ∧
  (∀ h i j, (h, i) ∈ wq.pk_map → (h, j) ∈ wq.pk_map → i = j)

/-- A record is accounted for by an ingestor state when it is among the
committed records or resident in one of the worker queues. -/
def recAccounted (ing : Ingestor) (x : Nat) : Prop :=
  x ∈ ing.committed ∨
    ∃ (j : Nat) (wq : WorkerQueue Nat),
      ing.queues[j]? = some wq ∧ x ∈ wq.record_queue

/-- Decidable equality for `Except` values, so that concrete runs of the
embedded fallible operations can be checked by `decide`. -/
instance exceptDecEq {ε α : Type} [DecidableEq ε] [DecidableEq α] :
    DecidableEq (Except ε α)
  | .ok a, .ok b =>
      if h : a = b then .isTrue (by rw [h])
      else .isFalse (by intro hh; cases hh; exact h rfl)
  | .ok _, .error _ => .isFalse (fun h => Except.noConfusion h)
  | .error _, .ok _ => .isFalse (fun h => Except.noConfusion h)
  | .error a, .error b =>
      if h : a = b then .isTrue (by rw [h])
      else .isFalse (by intro hh; cases hh; exact h rfl)

/-- Unfolding of `lookupH` on a cons cell. -/
theorem lookupH_cons (h h' : Int) (j : Nat) (M : List (Int × Nat)) :
    lookupH h ((h', j) :: M) = if h' = h then some j else lookupH h M := rfl

/-- A successful lookup names an entry of the map. -/
theorem lookupH_mem {h : Int} {M : List (Int × Nat)} {i : Nat}
    (hl : lookupH h M = some i) : (h, i) ∈ M := by
  induction M with
  | nil => simp [lookupH] at hl
  | cons p rest ih =>
      obtain ⟨h', j⟩ := p
      rw [lookupH_cons] at hl
      by_cases hh : h' = h
      · rw [if_pos hh] at hl
        cases hl
        subst hh
        exact List.mem_cons_self _ _
      · rw [if_neg hh] at hl
        exact List.mem_cons_of_mem _ (ih hl)

/-- A failed lookup means the hash keys no entry of the map. -/
theorem lookupH_none {h : Int} {M : List (Int × Nat)}
    (hl : lookupH h M = none) : ∀ i, (h, i) ∉ M := by
  induction M with
  | nil => simp
  | cons p rest ih =>
      obtain ⟨h', j⟩ := p
      rw [lookupH_cons] at hl
      by_cases hh : h' = h
      · rw [if_pos hh] at hl
        cases hl
      · rw [if_neg hh] at hl
        intro i hmem
        rcases List.mem_cons.mp hmem with heq | hmem'
        · cases heq
          exact hh rfl
        · exact ih hl i hmem'

/-- The queue's configuration fields are untouched by the insert
mutation. -/
theorem qinsertState_fields {α : Type} (wq : WorkerQueue α) (r : α) (k : RKey) :
    (qinsertState wq r k).capacity = wq.capacity ∧
    (qinsertState wq r k).has_primary_key = wq.has_primary_key ∧
    (qinsertState wq r k).update_on_existing_pk = wq.update_on_existing_pk := by
  unfold qinsertState
  repeat' split
  all_goals simp

/-- The insert mutation grows the queue by at most one record. -/
theorem qinsertState_len {α : Type} (wq : WorkerQueue α) (r : α) (k : RKey) :
    (qinsertState wq r k).record_queue.length ≤ wq.record_queue.length + 1 := by
  unfold qinsertState
  repeat' split
  all_goals simp [List.length_set]

/-- With no primary key, the insert mutation is a plain append. -/
theorem qinsertState_noPK {α : Type} (wq : WorkerQueue α) (r : α) (k : RKey)
    (hpk : wq.has_primary_key = false) :
    qinsertState wq r k = { wq with record_queue := wq.record_queue ++ [r] } := by
  unfold qinsertState
  rw [if_neg]
  simp [hpk]

/-- The duplicate-primary-key early return of `_WorkerQueue.insert`:
`none` and the state untouched (the record is dropped, not appended). -/
theorem qinsert_dup {α : Type} (wq : WorkerQueue α) (r : α) (k : RKey)
    (hdup : isDup wq k = true) : qinsert wq r k = (none, wq) := by
  simp [qinsert, hdup]

/-- Map entries carrying the same index carry the same hash (two keys of
one resident record agree). -/
theorem QInv_inj {wq : WorkerQueue (Nat × RKey)} (hinv : QInv wq)
    {h h' : Int} {i : Nat} (hm : (h, i) ∈ wq.pk_map)
    (hm' : (h', i) ∈ wq.pk_map) : h = h' := by
  obtain ⟨p, hp, _, hh⟩ := hinv.1 h i hm
  obtain ⟨p', hp', _, hh'⟩ := hinv.1 h' i hm'
  rw [hp] at hp'
  cases hp'
  rw [← hh, ← hh']

/-- No two residents inserted with valid keys share a hash code. -/
theorem QInv_distinct {wq : WorkerQueue (Nat × RKey)} (hinv : QInv wq)
    {i j : Nat} {p q : Nat × RKey}
    (hi : wq.record_queue[i]? = some p) (hj : wq.record_queue[j]? = some q)
    (hvp : p.2.is_valid = true) (hvq : q.2.is_valid = true)
    (hh : p.2.hash_code = q.2.hash_code) : i = j := by
  have h1 := hinv.2.1 i p hi hvp
  have h2 := hinv.2.1 j q hj hvq
  rw [hh] at h1
  exact hinv.2.2 q.2.hash_code i j h1 h2

/-- Appending a record whose key is invalid bypasses the index and
preserves the invariant. -/
theorem QInv_append_invalid (wq : WorkerQueue (Nat × RKey)) (p : Nat × RKey)
    (hp : p.2.is_valid = false) (hinv : QInv wq) :
    QInv { wq with record_queue := wq.record_queue ++ [p] } := by
  dsimp only [QInv]
  refine ⟨?_, ?_, hinv.2.2⟩
  · intro h i hm
    obtain ⟨q, hq, hv, hh⟩ := hinv.1 h i hm
    have hilt : i < wq.record_queue.length := (List.getElem?_eq_some.mp hq).1
    exact ⟨q, by rw [List.getElem?_append_left hilt]; exact hq, hv, hh⟩
  · intro i q hq hv
    rcases lt_or_ge i wq.record_queue.length with hlt | hge
    · rw [List.getElem?_append_left hlt] at hq
      exact hinv.2.1 i q hq hv
    · rcases Nat.eq_or_lt_of_le hge with heq | hlt
      · subst heq
        rw [List.getElem?_concat_length] at hq
        cases hq
        rw [hp] at hv
        cases hv
      · have hlen : (wq.record_queue ++ [p]).length ≤ i := by
          simp only [List.length_append, List.length_singleton]
          omega
        rw [List.getElem?_eq_none hlen] at hq
        cases hq

/-- Appending a record with a valid key whose hash is not yet indexed,
recording its position, preserves the invariant. -/
theorem QInv_append_index (wq : WorkerQueue (Nat × RKey)) (p : Nat × RKey)
    (hp : p.2.is_valid = true)
    (hl : lookupH p.2.hash_code wq.pk_map = none) (hinv : QInv wq) :
    QInv { wq with record_queue := wq.record_queue ++ [p],
                   pk_map := (p.2.hash_code, wq.record_queue.length) :: wq.pk_map } := by
  dsimp only [QInv]
  refine ⟨?_, ?_, ?_⟩
  · intro h i hm
    rcases List.mem_cons.mp hm with heq | hm'
    · cases heq
      exact ⟨p, List.getElem?_concat_length _ _, hp, rfl⟩
    · obtain ⟨q, hq, hv, hh⟩ := hinv.1 h i hm'
      have hilt : i < wq.record_queue.length := (List.getElem?_eq_some.mp hq).1
      exact ⟨q, by rw [List.getElem?_append_left hilt]; exact hq, hv, hh⟩
  · intro i q hq hv
    rcases lt_or_ge i wq.record_queue.length with hlt | hge
    · rw [List.getElem?_append_left hlt] at hq
      exact List.mem_cons_of_mem _ (hinv.2.1 i q hq hv)
    · rcases Nat.eq_or_lt_of_le hge with heq | hlt
      · subst heq
        rw [List.getElem?_concat_length] at hq
        cases hq
        exact List.mem_cons_self _ _
      · have hlen : (wq.record_queue ++ [p]).length ≤ i := by
          simp only [List.length_append, List.length_singleton]
          omega
        rw [List.getElem?_eq_none hlen] at hq
        cases hq
  · intro h i j hi hj
    rcases List.mem_cons.mp hi with hieq | hi' <;>
      rcases List.mem_cons.mp hj with hjeq | hj'
    · cases hieq; cases hjeq; rfl
    · cases hieq
      exact absurd hj' (lookupH_none hl j)
    · cases hjeq
      exact absurd hi' (lookupH_none hl i)
    · exact hinv.2.2 h i j hi' hj'

/-- Overwriting the resident record of an already-indexed hash with a
new valid record of that hash preserves the invariant. -/
theorem QInv_set (wq : WorkerQueue (Nat × RKey)) (p : Nat × RKey) (j : Nat)
    (hp : p.2.is_valid = true)
    (hl : lookupH p.2.hash_code wq.pk_map = some j) (hinv : QInv wq) :
    QInv { wq with record_queue := wq.record_queue.set j p } := by
  have hmem := lookupH_mem hl
  obtain ⟨q0, hq0, hv0, hh0⟩ := hinv.1 _ _ hmem
  have hjlt : j < wq.record_queue.length := (List.getElem?_eq_some.mp hq0).1
  dsimp only [QInv]
  refine ⟨?_, ?_, hinv.2.2⟩
  · intro h i hm
    by_cases hij : i = j
    · subst hij
      have hhash : p.2.hash_code = h := QInv_inj hinv hmem hm
      exact ⟨p, List.getElem?_set_self hjlt, hp, hhash⟩
    · obtain ⟨q, hq, hv, hh⟩ := hinv.1 h i hm
      refine ⟨q, ?_, hv, hh⟩
      rw [List.getElem?_set_ne (fun hh => hij hh.symm)]
      exact hq
  · intro i q hq hv
    by_cases hij : i = j
    · subst hij
      rw [List.getElem?_set_self hjlt] at hq
      cases hq
      exact hmem
    · rw [List.getElem?_set_ne (fun hh => hij hh.symm)] at hq
      exact hinv.2.1 i q hq hv

/-- The insert mutation preserves the index invariant on a queue with a
primary key, when the key passed alongside the stored pair is the pair's
own key. -/
theorem QInv_qinsertState (wq : WorkerQueue (Nat × RKey)) (p : Nat × RKey)
    (hpk : wq.has_primary_key = true) (hinv : QInv wq) :
    QInv (qinsertState wq p p.2) := by
  unfold qinsertState
  split
  · rename_i hcond
    split
    · split
      · rename_i j hl
        exact QInv_set wq p j hcond.2 hl hinv
      · rename_i hl
        exact QInv_append_index wq p hcond.2 hl hinv
    · split
      · exact hinv
      · rename_i hl
        exact QInv_append_index wq p hcond.2 hl hinv
  · rename_i hcond
    have hv : p.2.is_valid = false := by
      cases hvb : p.2.is_valid
      · rfl
      · exact absurd ⟨hpk, hvb⟩ hcond
    exact QInv_append_invalid wq p hv hinv

/-- Replaying one more insert at the end of a segment. -/
theorem buildQ_append (cap : Nat) (hp u : Bool) (seg : List (Nat × RKey))
    (p : Nat × RKey) :
    buildQ cap hp u (seg ++ [p]) = qinsertState (buildQ cap hp u seg) p p.2 := by
  unfold buildQ
  rw [List.foldl_append]
  rfl

/-- A replay keeps the queue's configuration fields. -/
theorem buildQ_fields (cap : Nat) (hp u : Bool) (seg : List (Nat × RKey)) :
    (buildQ cap hp u seg).capacity = cap ∧
    (buildQ cap hp u seg).has_primary_key = hp ∧
    (buildQ cap hp u seg).update_on_existing_pk = u := by
  induction seg using List.reverseRecOn with
  | nil => exact ⟨rfl, rfl, rfl⟩
  | append_singleton seg p ih =>
      rw [buildQ_append]
      have hf := qinsertState_fields (buildQ cap hp u seg) p p.2
      exact ⟨hf.1.trans ih.1, hf.2.1.trans ih.2.1, hf.2.2.trans ih.2.2⟩

/-- Every replay of a segment on a queue with a primary key satisfies
the index invariant. -/
theorem QInv_buildQ (cap : Nat) (u : Bool) (seg : List (Nat × RKey)) :
    QInv (buildQ cap true u seg) := by
  induction seg using List.reverseRecOn with
  | nil =>
      refine ⟨?_, ?_, ?_⟩ <;> simp [buildQ, freshQ]
  | append_singleton seg p ih =>
      rw [buildQ_append]
      exact QInv_qinsertState _ p (buildQ_fields cap true u seg).2.1 ih

/-- Each resident record after the insert mutation is an old resident or
the inserted record. -/
theorem qinsertState_mem {α : Type} (wq : WorkerQueue α) (r : α) (k : RKey)
    (q : α) (hq : q ∈ (qinsertState wq r k).record_queue) :
    q ∈ wq.record_queue ∨ q = r := by
  unfold qinsertState at hq
  repeat' split at hq
  all_goals first
    | exact .inl hq
    | (rcases List.mem_append.mp hq with h | h
       · exact .inl h
       · exact .inr (List.mem_singleton.mp h))
    | (rcases List.mem_or_eq_of_mem_set hq with h | h
       · exact .inl h
       · exact .inr h)

/-- Resident records of a replay come from the segment. -/
theorem buildQ_mem (cap : Nat) (hp u : Bool) (seg : List (Nat × RKey))
    (q : Nat × RKey) (hq : q ∈ (buildQ cap hp u seg).record_queue) :
    q ∈ seg := by
  induction seg using List.reverseRecOn with
  | nil => simp [buildQ, freshQ] at hq
  | append_singleton seg p ih =>
      rw [buildQ_append] at hq
      rcases qinsertState_mem _ p p.2 q hq with h | h
      · exact List.mem_append_left _ (ih h)
      · exact h ▸ List.mem_append_right _ (List.mem_singleton_self _)

/-- Flushing a replayed queue yields the empty replay. -/
theorem flushQ_buildQ (cap : Nat) (hp u : Bool) (seg : List (Nat × RKey)) :
    (flushQ (buildQ cap hp u seg)).2 = buildQ cap hp u [] := by
  have hf := buildQ_fields cap hp u seg
  have hnil : buildQ cap hp u [] = freshQ (Nat × RKey) cap hp u := rfl
  apply WorkerQueue.ext
  · simpa [flushQ, hnil, freshQ] using hf.1
  · simpa [flushQ, hnil, freshQ] using hf.2.1
  · simpa [flushQ, hnil, freshQ] using hf.2.2
  · simp [flushQ, hnil, freshQ]
  · simp [flushQ, hnil, freshQ]

/-- The non-duplicate insert, queue full afterward: the whole queue is
returned and the state is reset. -/
theorem qinsert_full {α : Type} (wq : WorkerQueue α) (r : α) (k : RKey)
    (hdup : isDup wq k = false)
    (hfull : (qinsertState wq r k).record_queue.length =
      (qinsertState wq r k).capacity) :
    qinsert wq r k =
      (some (qinsertState wq r k).record_queue, (flushQ (qinsertState wq r k)).2) := by
  simp [qinsert, hdup, hfull, flushQ]

/-- The non-duplicate insert, queue below capacity afterward: nothing is
returned and the mutated state stands. -/
theorem qinsert_notfull {α : Type} (wq : WorkerQueue α) (r : α) (k : RKey)
    (hdup : isDup wq k = false)
    (hfull : (qinsertState wq r k).record_queue.length ≠
      (qinsertState wq r k).capacity) :
    qinsert wq r k = (none, qinsertState wq r k) := by
  simp [qinsert, hdup, hfull]

/-- Every batch a queue returns during a run is the record queue of the
replay of some insert segment (the calls made since the queue was last
empty). -/
theorem runQ_batches (cap : Nat) (hp u : Bool) :
    ∀ (ops : List QOp) (seg : List (Nat × RKey)) (B : List (Nat × RKey)),
      B ∈ (runQ (buildQ cap hp u seg) ops).1 →
      ∃ seg', B = (buildQ cap hp u seg').record_queue := by
  intro ops
  induction ops with
  | nil =>
      intro seg B hB
      simp [runQ] at hB
  | cons op rest ih =>
      intro seg B hB
      cases op with
      | fl =>
          simp only [runQ, stepQ] at hB
          rcases List.mem_cons.mp hB with heq | hmem
          · exact ⟨seg, heq⟩
          · rw [flushQ_buildQ] at hmem
            exact ih [] B hmem
      | ins r k =>
          cases hdup : isDup (buildQ cap hp u seg) k with
          | true =>
              rw [show runQ (buildQ cap hp u seg) (QOp.ins r k :: rest) =
                    (runQ (buildQ cap hp u seg) rest)
                  from by simp [runQ, stepQ, qinsert_dup _ _ _ hdup]] at hB
              exact ih seg B hB
          | false =>
              by_cases hfull : (qinsertState (buildQ cap hp u seg) (r, k) k).record_queue.length =
                  (qinsertState (buildQ cap hp u seg) (r, k) k).capacity
              · rw [show runQ (buildQ cap hp u seg) (QOp.ins r k :: rest) =
                      ((qinsertState (buildQ cap hp u seg) (r, k) k).record_queue ::
                        (runQ ((flushQ (qinsertState (buildQ cap hp u seg) (r, k) k)).2) rest).1,
                       (runQ ((flushQ (qinsertState (buildQ cap hp u seg) (r, k) k)).2) rest).2)
                    from by simp [runQ, stepQ, qinsert_full _ _ _ hdup hfull]] at hB
                rcases List.mem_cons.mp hB with heq | hmem
                · rw [← buildQ_append] at heq
                  exact ⟨seg ++ [(r, k)], heq⟩
                · rw [← buildQ_append, flushQ_buildQ] at hmem
                  exact ih [] B hmem
              · rw [show runQ (buildQ cap hp u seg) (QOp.ins r k :: rest) =
                      runQ (qinsertState (buildQ cap hp u seg) (r, k) k) rest
                    from by simp [runQ, stepQ, qinsert_notfull _ _ _ hdup hfull]] at hB
                rw [← buildQ_append] at hB
                exact ih (seg ++ [(r, k)]) B hB

/-- Insert-mutation shape: update-in-place when the hash is indexed and
`update_on_existing_pk` is set. -/
theorem qinsertState_update_set (wq : WorkerQueue (Nat × RKey)) (q : Nat × RKey)
    (j : Nat) (hpk : wq.has_primary_key = true)
    (hupd : wq.update_on_existing_pk = true) (hqv : q.2.is_valid = true)
    (hlq : lookupH q.2.hash_code wq.pk_map = some j) :
    qinsertState wq q q.2 = { wq with record_queue := wq.record_queue.set j q } := by
  unfold qinsertState
  rw [if_pos ⟨hpk, hqv⟩, if_pos hupd, hlq]

/-- Insert-mutation shape: append and index a valid key whose hash is
not yet present (either setting of `update_on_existing_pk`). -/
theorem qinsertState_index_append (wq : WorkerQueue (Nat × RKey)) (q : Nat × RKey)
    (hpk : wq.has_primary_key = true) (hqv : q.2.is_valid = true)
    (hlq : lookupH q.2.hash_code wq.pk_map = none) :
    qinsertState wq q q.2 =
      { wq with record_queue := wq.record_queue ++ [q],
                pk_map := (q.2.hash_code, wq.record_queue.length) :: wq.pk_map } := by
  unfold qinsertState
  rw [if_pos ⟨hpk, hqv⟩]
  split
  · rw [hlq]
  · rw [hlq]

/-- Insert-mutation shape: an invalid key bypasses the index and appends
unconditionally. -/
theorem qinsertState_invalid_append (wq : WorkerQueue (Nat × RKey)) (q : Nat × RKey)
    (hqv : q.2.is_valid = false) :
    qinsertState wq q q.2 = { wq with record_queue := wq.record_queue ++ [q] } := by
  unfold qinsertState
  rw [if_neg]
  intro hc
  rw [hqv] at hc
  exact Bool.false_ne_true hc.2

/-- The last-valid-record view of a segment extended by one insert. -/
theorem lastValidWith_append (h : Int) (seg : List (Nat × RKey)) (p : Nat × RKey) :
    lastValidWith h (seg ++ [p]) =
      if p.2.is_valid ∧ p.2.hash_code = h then some p else lastValidWith h seg := by
  unfold lastValidWith
  rw [List.foldl_append]
  rfl

/-- An indexed hash stays indexed, at the same slot, across any further
insert mutation. -/
theorem lookupH_qinsertState (wq : WorkerQueue (Nat × RKey)) (q : Nat × RKey)
    {h : Int} {L : Nat} (hL : lookupH h wq.pk_map = some L) :
    lookupH h (qinsertState wq q q.2).pk_map = some L := by
  unfold qinsertState
  split
  · split
    · split
      · exact hL
      · rename_i hl
        dsimp only
        rw [lookupH_cons, if_neg]
        · exact hL
        · intro hqh
          rw [hqh, hL] at hl
          cases hl
    · split
      · exact hL
      · rename_i hl
        dsimp only
        rw [lookupH_cons, if_neg]
        · exact hL
        · intro hqh
          rw [hqh, hL] at hl
          cases hl
  · exact hL

/-- The slot of the first: once the first record with a given valid hash
is inserted — at the position the queue had then — the index maps that
hash to this slot for the rest of the segment. -/
theorem buildQ_first_slot (cap : Nat) (upd : Bool) (pre : List (Nat × RKey))
    (p : Nat × RKey) (hpv : p.2.is_valid = true)
    (hfirst : ∀ q ∈ pre, q.2.is_valid = true → q.2.hash_code ≠ p.2.hash_code) :
    ∀ post, lookupH p.2.hash_code (buildQ cap true upd (pre ++ p :: post)).pk_map =
      some (buildQ cap true upd pre).record_queue.length := by
  have hnone : lookupH p.2.hash_code (buildQ cap true upd pre).pk_map = none := by
    cases hl : lookupH p.2.hash_code (buildQ cap true upd pre).pk_map with
    | none => rfl
    | some i =>
        exfalso
        have hmem := lookupH_mem hl
        obtain ⟨q, hq, hv, hh⟩ := (QInv_buildQ cap upd pre).1 _ _ hmem
        have hqmem := buildQ_mem cap true upd pre q (List.mem_iff_getElem?.mpr ⟨i, hq⟩)
        exact hfirst q hqmem hv hh
  intro post
  induction post using List.reverseRecOn with
  | nil =>
      rw [buildQ_append, qinsertState_index_append _ _
        (buildQ_fields cap true upd pre).2.1 hpv hnone]
      dsimp only
      rw [lookupH_cons, if_pos rfl]
  | append_singleton post q ihp =>
      have hassoc : pre ++ p :: (post ++ [q]) = (pre ++ p :: post) ++ [q] := by
        simp
      rw [hassoc, buildQ_append]
      exact lookupH_qinsertState _ q ihp

/-- The record surviving at an indexed slot, in update mode, is the last
record of the segment inserted with that valid hash. -/
theorem buildQ_lookup_last (cap : Nat) :
    ∀ (seg : List (Nat × RKey)) (h : Int) (i : Nat),
      lookupH h (buildQ cap true true seg).pk_map = some i →
      (buildQ cap true true seg).record_queue[i]? = lastValidWith h seg := by
  intro seg
  induction seg using List.reverseRecOn with
  | nil =>
      intro h i hl
      simp [buildQ, freshQ, lookupH] at hl
  | append_singleton seg q ih =>
      intro h i hl
      rw [buildQ_append] at hl ⊢
      rw [lastValidWith_append]
      have hinv := QInv_buildQ cap true seg
      have hfields := buildQ_fields cap true true seg
      by_cases hqv : q.2.is_valid = true
      · cases hlq : lookupH q.2.hash_code (buildQ cap true true seg).pk_map with
        | some j =>
            rw [qinsertState_update_set _ _ j hfields.2.1 hfields.2.2 hqv hlq] at hl ⊢
            dsimp only at hl ⊢
            by_cases hqh : q.2.hash_code = h
            · rw [hqh] at hlq
              have hij : i = j := by
                rw [hl] at hlq
                cases hlq
                rfl
              subst hij
              rw [if_pos ⟨hqv, hqh⟩]
              have hmem := lookupH_mem hl
              obtain ⟨p0, hp0, _, _⟩ := hinv.1 _ _ hmem
              exact List.getElem?_set_self (List.getElem?_eq_some.mp hp0).1
            · rw [if_neg (fun hc => hqh hc.2)]
              have hne : i ≠ j := by
                intro hij
                subst hij
                exact hqh (QInv_inj hinv (lookupH_mem hlq) (lookupH_mem hl))
              rw [List.getElem?_set_ne (fun hji => hne hji.symm)]
              exact ih h i hl
        | none =>
            rw [qinsertState_index_append _ _ hfields.2.1 hqv hlq] at hl ⊢
            dsimp only at hl ⊢
            rw [lookupH_cons] at hl
            by_cases hqh : q.2.hash_code = h
            · rw [if_pos hqh] at hl
              cases hl
              rw [if_pos ⟨hqv, hqh⟩]
              exact List.getElem?_concat_length _ _
            · rw [if_neg hqh] at hl
              rw [if_neg (fun hc => hqh hc.2)]
              have hmem := lookupH_mem hl
              obtain ⟨p0, hp0, _, _⟩ := hinv.1 _ _ hmem
              rw [List.getElem?_append_left (List.getElem?_eq_some.mp hp0).1]
              exact ih h i hl
      · have hqv' : q.2.is_valid = false := by
          cases hv : q.2.is_valid
          · rfl
          · exact absurd hv hqv
        rw [qinsertState_invalid_append _ _ hqv'] at hl ⊢
        dsimp only at hl ⊢
        rw [if_neg (fun hc => by rw [hqv'] at hc; exact Bool.false_ne_true hc.1)]
        have hmem := lookupH_mem hl
        obtain ⟨p0, hp0, _, _⟩ := hinv.1 _ _ hmem
        rw [List.getElem?_append_left (List.getElem?_eq_some.mp hp0).1]
        exact ih h i hl

/-- A run preserves the strict length bound and the capacity field. -/
theorem runQ_len_inv (ops : List QOp) :
    ∀ (wq : WorkerQueue (Nat × RKey)), wq.record_queue.length < wq.capacity →
      (runQ wq ops).2.record_queue.length < (runQ wq ops).2.capacity ∧
      (runQ wq ops).2.capacity = wq.capacity := by
  induction ops with
  | nil =>
      intro wq h
      exact ⟨h, rfl⟩
  | cons op rest ih =>
      intro wq h
      have hcap1 : 0 < wq.capacity := Nat.lt_of_le_of_lt (Nat.zero_le _) h
      cases op with
      | fl =>
          rw [show runQ wq (QOp.fl :: rest) =
                ((runQ (flushQ wq).2 rest).1.cons (flushQ wq).1, (runQ (flushQ wq).2 rest).2)
              from by simp [runQ, stepQ]]
          have hstart : ((flushQ wq).2).record_queue.length < ((flushQ wq).2).capacity := by
            simpa [flushQ] using hcap1
          have hres := ih (flushQ wq).2 hstart
          exact ⟨hres.1, hres.2.trans (by simp [flushQ])⟩
      | ins r k =>
          cases hdup : isDup wq k with
          | true =>
              rw [show runQ wq (QOp.ins r k :: rest) = runQ wq rest
                  from by simp [runQ, stepQ, qinsert_dup _ _ _ hdup]]
              exact ih wq h
          | false =>
              have hlen1 := qinsertState_len wq (r, k) k
              have hfields := qinsertState_fields wq (r, k) k
              by_cases hfull : (qinsertState wq (r, k) k).record_queue.length =
                  (qinsertState wq (r, k) k).capacity
              · rw [show runQ wq (QOp.ins r k :: rest) =
                      ((runQ ((flushQ (qinsertState wq (r, k) k)).2) rest).1.cons
                        (qinsertState wq (r, k) k).record_queue,
                       (runQ ((flushQ (qinsertState wq (r, k) k)).2) rest).2)
                    from by simp [runQ, stepQ, qinsert_full _ _ _ hdup hfull]]
                have hstart : ((flushQ (qinsertState wq (r, k) k)).2).record_queue.length <
                    ((flushQ (qinsertState wq (r, k) k)).2).capacity := by
                  simp only [flushQ, List.length_nil]
                  rw [hfields.1]
                  exact hcap1
                have hres := ih _ hstart
                refine ⟨hres.1, hres.2.trans ?_⟩
                simp only [flushQ]
                exact hfields.1
              · rw [show runQ wq (QOp.ins r k :: rest) = runQ (qinsertState wq (r, k) k) rest
                    from by simp [runQ, stepQ, qinsert_notfull _ _ _ hdup hfull]]
                have hstart : (qinsertState wq (r, k) k).record_queue.length <
                    (qinsertState wq (r, k) k).capacity := by
                  rw [hfields.1]
                  rcases Nat.lt_or_ge (qinsertState wq (r, k) k).record_queue.length
                      wq.capacity with hlt | hge
                  · exact hlt
                  · exfalso
                    have : (qinsertState wq (r, k) k).record_queue.length = wq.capacity := by
                      omega
                    rw [← hfields.1] at this
                    exact hfull this
                have hres := ih _ hstart
                exact ⟨hres.1, hres.2.trans hfields.1⟩

/-- C3.  On a worker queue with a primary key: no two records of any
returned batch were inserted with valid keys of the same hash (without
update-on-existing-PK a later valid duplicate is dropped with the state
untouched, not appended); in update mode every batch is the replay of
the insert segment made since the queue was last empty, and for the
first record of the segment carrying a given valid hash, the slot where
it was appended holds the segment's most recently inserted record with
that hash. -/
theorem c3_pk_dedup (cap : Nat) (upd : Bool) (ops : List QOp)
    (B : List (Nat × RKey))
    (hB : B ∈ (runQ (freshQ (Nat × RKey) cap true upd) ops).1)
    (i j : Nat) (p q : Nat × RKey)
    (hi : B[i]? = some p) (hj : B[j]? = some q)
    (hvp : p.2.is_valid = true) (hvq : q.2.is_valid = true)
    (hhash : p.2.hash_code = q.2.hash_code)
    (wq : WorkerQueue (Nat × RKey)) (r : Nat) (k : RKey)
    (hw1 : wq.has_primary_key = true) (hw2 : wq.update_on_existing_pk = false)
    (hw3 : k.is_valid = true) (hw4 : (lookupH k.hash_code wq.pk_map).isSome = true)
    (seg pre post : List (Nat × RKey)) (p1 : Nat × RKey)
    (hseg : seg = pre ++ p1 :: post) (hp1 : p1.2.is_valid = true)
    (hfirst : ∀ q1 ∈ pre, q1.2.is_valid = true → q1.2.hash_code ≠ p1.2.hash_code) :
    i = j ∧
    qinsert wq (r, k) k = (none, wq) ∧
    (upd = true → ∃ seg2, B = (buildQ cap true true seg2).record_queue) ∧
    (buildQ cap true true seg).record_queue[
        (buildQ cap true true pre).record_queue.length]? =
      lastValidWith p1.2.hash_code seg := by
  refine ⟨?_, ?_, ?_, ?_⟩
  · obtain ⟨seg', hBeq⟩ := runQ_batches cap true upd ops [] B hB
    subst hBeq
    exact QInv_distinct (QInv_buildQ cap upd seg') hi hj hvp hvq hhash
  · exact qinsert_dup wq (r, k) k (by simp [isDup, hw1, hw2, hw3, hw4])
  · intro hupd
    subst hupd
    exact runQ_batches cap true true ops [] B hB
  · have hslot := buildQ_first_slot cap true pre p1 hp1 hfirst post
    rw [← hseg] at hslot
    exact buildQ_lookup_last cap seg _ _ hslot

/-- C3, witness.  Capacity 3, update mode: inserting records 1 then 2
under the same valid hash 5 and flushing returns the batch whose single
slot (the slot of the first) holds record 2, the most recent; a
duplicate insert against a non-update queue returns `none` untouched. -/
theorem c3_pk_dedup_witness :
    (0 : Nat) = 0 ∧
    qinsert (⟨3, true, false, [(9, ⟨5, true⟩)], [(5, 0)]⟩ : WorkerQueue (Nat × RKey))
        (7, ⟨5, true⟩) ⟨5, true⟩ =
      (none, ⟨3, true, false, [(9, ⟨5, true⟩)], [(5, 0)]⟩) ∧
    (true = true → ∃ seg2,
      [((2 : Nat), (⟨5, true⟩ : RKey))] = (buildQ 3 true true seg2).record_queue) ∧
    (buildQ 3 true true [(1, ⟨5, true⟩), (2, ⟨5, true⟩)]).record_queue[
        (buildQ 3 true true []).record_queue.length]? =
      lastValidWith (5 : Int) [(1, ⟨5, true⟩), (2, ⟨5, true⟩)] :=
  c3_pk_dedup 3 true [.ins 1 ⟨5, true⟩, .ins 2 ⟨5, true⟩, .fl]
    [(2, ⟨5, true⟩)] (by decide) 0 0 (2, ⟨5, true⟩) (2, ⟨5, true⟩)
    (by decide) (by decide) (by decide) (by decide) (by decide)
    ⟨3, true, false, [(9, ⟨5, true⟩)], [(5, 0)]⟩ 7 ⟨5, true⟩
    (by decide) (by decide) (by decide) (by decide)
    [(1, ⟨5, true⟩), (2, ⟨5, true⟩)] [] [(2, ⟨5, true⟩)] (1, ⟨5, true⟩)
    (by decide) (by decide) (by decide)

/-- C4.  For every sequence of calls on a queue of positive capacity the
queue length never exceeds the capacity between calls, and whenever
`insert` returns a batch (which happens exactly when capacity was
reached) the post state has an empty queue and an empty primary-key
index. -/
theorem c4_queue_capacity (cap : Nat) (hp upd : Bool) (ops : List QOp)
    (hcap : 1 ≤ cap) {α : Type} (wq : WorkerQueue α) (r : α) (k : RKey)
    (B : List α) (wq' : WorkerQueue α) (hfl : qinsert wq r k = (some B, wq')) :
    (runQ (freshQ (Nat × RKey) cap hp upd) ops).2.record_queue.length ≤ cap ∧
    wq'.record_queue = [] ∧ wq'.pk_map = [] := by
  constructor
  · have h0 : (freshQ (Nat × RKey) cap hp upd).record_queue.length <
        (freshQ (Nat × RKey) cap hp upd).capacity := by
      simpa [freshQ] using hcap
    have hres := runQ_len_inv ops _ h0
    have : (freshQ (Nat × RKey) cap hp upd).capacity = cap := rfl
    omega
  · by_cases hdup : isDup wq k = true
    · rw [qinsert_dup _ _ _ hdup] at hfl
      simp at hfl
    · have hdup' : isDup wq k = false := by
        cases hd : isDup wq k
        · rfl
        · exact absurd hd hdup
      by_cases hfull : (qinsertState wq r k).record_queue.length =
          (qinsertState wq r k).capacity
      · rw [qinsert_full _ _ _ hdup' hfull] at hfl
        have hq : wq' = (flushQ (qinsertState wq r k)).2 := by
          cases hfl
          rfl
        rw [hq]
        exact ⟨rfl, rfl⟩
      · rw [qinsert_notfull _ _ _ hdup' hfull] at hfl
        simp at hfl

/-- C4, witness.  One insert on a fresh capacity-2 queue stays within
bound; an insert that fills a capacity-1 queue returns its batch with
the queue and index reset. -/
theorem c4_queue_capacity_witness :
    (runQ (freshQ (Nat × RKey) 2 true false) [.ins 5 ⟨1, true⟩]).2.record_queue.length ≤ 2 ∧
    ((freshQ Nat 1 true false).record_queue = [] ∧
      (freshQ Nat 1 true false).pk_map = []) :=
  have h : qinsert (freshQ Nat 1 true false) 5 ⟨1, true⟩ =
      (some [5], freshQ Nat 1 true false) := by decide
  ⟨(c4_queue_capacity 2 true false [.ins 5 ⟨1, true⟩] (by decide)
      (freshQ Nat 1 true false) 5 ⟨1, true⟩ [5] (freshQ Nat 1 true false) h).1,
   (c4_queue_capacity 2 true false [.ins 5 ⟨1, true⟩] (by decide)
      (freshQ Nat 1 true false) 5 ⟨1, true⟩ [5] (freshQ Nat 1 true false) h).2⟩

/-- C10.  A duplicate valid primary key on a non-update queue makes
`insert` return `None` with the state untouched — the same `None` a
successful append returns when the queue stays below capacity, so the
return value cannot tell a silent drop from a normal enqueue. -/
theorem c10_duplicate_return (α : Type) (wq wq2 : WorkerQueue α) (r r2 : α)
    (k k2 : RKey)
    (h1 : wq.has_primary_key = true) (h2 : wq.update_on_existing_pk = false)
    (h3 : k.is_valid = true) (h4 : (lookupH k.hash_code wq.pk_map).isSome = true)
    (h5 : isDup wq2 k2 = false)
    (h6 : (qinsertState wq2 r2 k2).record_queue.length ≠
      (qinsertState wq2 r2 k2).capacity) :
    qinsert wq r k = (none, wq) ∧ (qinsert wq2 r2 k2).1 = none ∧
    (qinsert wq r k).1 = (qinsert wq2 r2 k2).1 := by
  have e1 := qinsert_dup wq r k (by simp [isDup, h1, h2, h3, h4])
  have e2 := qinsert_notfull wq2 r2 k2 h5 h6
  exact ⟨e1, by rw [e2], by rw [e1, e2]⟩

/-- C10, witness.  A concrete duplicate drop and a concrete plain
enqueue, both answering `none`. -/
theorem c10_duplicate_return_witness :
    qinsert (⟨10, true, false, [1], [(7, 0)]⟩ : WorkerQueue Nat) 2 ⟨7, true⟩ =
      (none, ⟨10, true, false, [1], [(7, 0)]⟩) ∧
    (qinsert (freshQ Nat 10 false false) 2 ⟨0, false⟩).1 = none ∧
    (qinsert (⟨10, true, false, [1], [(7, 0)]⟩ : WorkerQueue Nat) 2 ⟨7, true⟩).1 =
      (qinsert (freshQ Nat 10 false false) 2 ⟨0, false⟩).1 :=
  c10_duplicate_return Nat ⟨10, true, false, [1], [(7, 0)]⟩
    (freshQ Nat 10 false false) 2 2 ⟨7, true⟩ ⟨0, false⟩
    (by decide) (by decide) (by decide) (by decide) (by decide) (by decide)

/-- The first occurrence found by `records.index(record)` is no further
than any concrete occurrence. -/
theorem indexOfN_le (r : Nat) : ∀ (done rest : List Nat),
    indexOfN r (done ++ r :: rest) ≤ done.length := by
  intro done
  induction done with
  | nil =>
      intro rest
      simp [indexOfN]
  | cons a done ih =>
      intro rest
      by_cases ha : a = r
      · simp [indexOfN, ha]
      · simp only [List.cons_append, indexOfN, ha, if_false, List.length_cons]
        exact Nat.succ_le_succ (ih rest)

/-- Everything from a concrete occurrence of the failing record onward
is inside `records[records.index(record):]`. -/
theorem mem_drop_indexOfN {records done rest : List Nat} {r x : Nat}
    (hrec : records = done ++ r :: rest) (hx : x ∈ r :: rest) :
    x ∈ records.drop (indexOfN r records) := by
  subst hrec
  rw [List.drop_append_of_le_length (indexOfN_le r done rest)]
  exact List.mem_append_right _ hx

/-- Accounting for `insert_records` over queues without a primary key:
every record that is still to be processed, or already accounted for by
the ingestor state (committed or resident in a queue), ends up carried
by the raised exception, committed, or resident in a queue of the final
state. -/
theorem insertRecordsFrom_accounts (routeOf : Nat → Nat) (pkKeyOf : Nat → RKey)
    (client : Nat → List Nat → Option (Nat × Nat)) (records : List Nat) :
    ∀ (rest done : List Nat) (ing : Ingestor),
      records = done ++ rest →
      (∀ wq ∈ ing.queues, wq.has_primary_key = false) →
      (∀ r ∈ rest, routeOf r < ing.queues.length) →
      ∀ x : Nat, (x ∈ rest ∨ recAccounted ing x) →
        x ∈ (insertRecordsFrom routeOf pkKeyOf client records ing rest).1.getD [] ++
              (insertRecordsFrom routeOf pkKeyOf client records ing rest).2.committed ∨
        ∃ (j : Nat) (wq : WorkerQueue Nat),
          (insertRecordsFrom routeOf pkKeyOf client records ing rest).2.queues[j]? =
              some wq ∧
            x ∈ wq.record_queue := by
  intro rest
  induction rest with
  | nil =>
      intro done ing hrec hq hroute x hx
      rcases hx with hx | hacc
      · cases hx
      rcases hacc with hc | hqueue
      · exact .inl (by simpa [insertRecordsFrom] using hc)
      · exact .inr (by simpa [insertRecordsFrom] using hqueue)
  | cons r rest' ih =>
      intro done ing hrec hq hroute x hx
      have hw : routeOf r < ing.queues.length := hroute r (List.mem_cons_self _ _)
      set wq : WorkerQueue Nat := ing.queues.getD (routeOf r) (freshQ Nat 1 false false)
        with hwq
      have hwqget : ing.queues[routeOf r]? = some wq := by
        rw [hwq, List.getD_eq_getElem?_getD, List.getElem?_eq_getElem hw]
        rfl
      have hpk : wq.has_primary_key = false :=
        hq wq (List.mem_iff_getElem?.mpr ⟨routeOf r, hwqget⟩)
      have hdup : isDup wq (pkKeyOf r) = false := by simp [isDup, hpk]
      have hstate : qinsertState wq r (pkKeyOf r) =
          { wq with record_queue := wq.record_queue ++ [r] } :=
        qinsertState_noPK wq r _ hpk
      by_cases hfull : (wq.record_queue ++ [r]).length = wq.capacity
      · -- the queue fills: it is flushed through the client
        have heq : (qinsertState wq r (pkKeyOf r)).record_queue.length =
            (qinsertState wq r (pkKeyOf r)).capacity := by
          rw [hstate]
          exact hfull
        have hins := qinsert_full wq r (pkKeyOf r) hdup heq
        rw [hstate] at hins
        have hrecord : insertRecord routeOf pkKeyOf client ing r =
            ingFlush client
              { ing with queues :=
                  ing.queues.set (routeOf r) ({ wq with record_queue := [], pk_map := [] }) }
              (routeOf r) (wq.record_queue ++ [r]) := by
          simp only [insertRecord]
          rw [← hwq, hins]
          rfl
        have hbatchne : wq.record_queue ++ [r] ≠ [] := by simp
        cases hcl : client (routeOf r) (wq.record_queue ++ [r]) with
        | some counts =>
            have hflush : insertRecord routeOf pkKeyOf client ing r =
                (none,
                  { queues :=
                      ing.queues.set (routeOf r) ({ wq with record_queue := [], pk_map := [] }),
                    count_inserted := ing.count_inserted + counts.1,
                    count_updated := ing.count_updated + counts.2,
                    committed := ing.committed ++ (wq.record_queue ++ [r]) }) := by
              rw [hrecord]
              simp only [ingFlush]
              rw [if_neg hbatchne, hcl]
            rw [show insertRecordsFrom routeOf pkKeyOf client records ing (r :: rest') =
                  insertRecordsFrom routeOf pkKeyOf client records
                    { queues :=
                        ing.queues.set (routeOf r) ({ wq with record_queue := [], pk_map := [] }),
                      count_inserted := ing.count_inserted + counts.1,
                      count_updated := ing.count_updated + counts.2,
                      committed := ing.committed ++ (wq.record_queue ++ [r]) } rest'
                from by simp only [insertRecordsFrom, hflush]]
            refine ih (done ++ [r]) _ (by rw [hrec]; simp) ?_ ?_ x ?_
            · intro wq2 hwq2
              rcases List.mem_or_eq_of_mem_set hwq2 with hmem | hset
              · exact hq wq2 hmem
              · rw [hset]
                exact hpk
            · intro r2 hr2
              rw [List.length_set]
              exact hroute r2 (List.mem_cons_of_mem _ hr2)
            · rcases hx with hx | hacc
              · rcases List.mem_cons.mp hx with hxr | hxrest
                · subst hxr
                  refine .inr (.inl ?_)
                  exact List.mem_append_right _ (List.mem_append_right _
                    (List.mem_singleton_self _))
                · exact .inl hxrest
              · refine .inr ?_
                rcases hacc with hc | ⟨j, wqj, hj, hxj⟩
                · exact .inl (List.mem_append_left _ hc)
                · by_cases hjw : j = routeOf r
                  · subst hjw
                    rw [hwqget] at hj
                    cases hj
                    exact .inl (List.mem_append_right _ (List.mem_append_left _ hxj))
                  · exact .inr ⟨j, wqj, by
                      rw [List.getElem?_set_ne (fun hh => hjw hh.symm)]
                      exact hj, hxj⟩
        | none =>
            have hflush : insertRecord routeOf pkKeyOf client ing r =
                (some (wq.record_queue ++ [r]),
                  { ing with queues :=
                      ing.queues.set (routeOf r) ({ wq with record_queue := [], pk_map := [] }) }) := by
              rw [hrecord]
              simp only [ingFlush]
              rw [if_neg hbatchne, hcl]
            rw [show insertRecordsFrom routeOf pkKeyOf client records ing (r :: rest') =
                  (some ((wq.record_queue ++ [r]) ++
                      records.drop (indexOfN r records)),
                    { ing with queues :=
                        ing.queues.set (routeOf r) ({ wq with record_queue := [], pk_map := [] }) })
                from by simp only [insertRecordsFrom, hflush]]
            rcases hx with hx | hacc
            · rcases List.mem_cons.mp hx with hxr | hxrest
              · subst hxr
                exact .inl (List.mem_append_left _ (List.mem_append_left _
                  (List.mem_append_right _ (List.mem_singleton_self _))))
              · exact .inl (List.mem_append_left _ (List.mem_append_right _
                  (mem_drop_indexOfN hrec (List.mem_cons_of_mem _ hxrest))))
            · rcases hacc with hc | ⟨j, wqj, hj, hxj⟩
              · exact .inl (List.mem_append_right _ hc)
              · by_cases hjw : j = routeOf r
                · subst hjw
                  rw [hwqget] at hj
                  cases hj
                  exact .inl (List.mem_append_left _ (List.mem_append_left _
                    (List.mem_append_left _ hxj)))
                · exact .inr ⟨j, wqj, by
                    rw [List.getElem?_set_ne (fun hh => hjw hh.symm)]
                    exact hj, hxj⟩
      · -- the queue stays below capacity: the record is just enqueued
        have hne : (qinsertState wq r (pkKeyOf r)).record_queue.length ≠
            (qinsertState wq r (pkKeyOf r)).capacity := by
          rw [hstate]
          exact hfull
        have hins := qinsert_notfull wq r (pkKeyOf r) hdup hne
        rw [hstate] at hins
        have hrecord : insertRecord routeOf pkKeyOf client ing r =
            (none, { ing with queues :=
                ing.queues.set (routeOf r) ({ wq with record_queue := wq.record_queue ++ [r] }) }) := by
          simp only [insertRecord]
          rw [← hwq, hins]
        rw [show insertRecordsFrom routeOf pkKeyOf client records ing (r :: rest') =
              insertRecordsFrom routeOf pkKeyOf client records
                { ing with queues :=
                    ing.queues.set (routeOf r) ({ wq with record_queue := wq.record_queue ++ [r] }) } rest'
            from by simp only [insertRecordsFrom, hrecord]]
        refine ih (done ++ [r]) _ (by rw [hrec]; simp) ?_ ?_ x ?_
        · intro wq2 hwq2
          rcases List.mem_or_eq_of_mem_set hwq2 with hmem | hset
          · exact hq wq2 hmem
          · rw [hset]
            exact hpk
        · intro r2 hr2
          rw [List.length_set]
          exact hroute r2 (List.mem_cons_of_mem _ hr2)
        · rcases hx with hx | hacc
          · rcases List.mem_cons.mp hx with hxr | hxrest
            · rw [hxr]
              refine .inr (.inr ⟨routeOf r, _, List.getElem?_set_self hw, ?_⟩)
              exact List.mem_append_right _ (List.mem_singleton_self _)
            · exact .inl hxrest
          · refine .inr ?_
            rcases hacc with hc | ⟨j, wqj, hj, hxj⟩
            · exact .inl hc
            · by_cases hjw : j = routeOf r
              · subst hjw
                rw [hwqget] at hj
                cases hj
                exact .inr ⟨routeOf r, _, List.getElem?_set_self hw,
                  List.mem_append_left _ hxj⟩
              · exact .inr ⟨j, wqj, by
                  rw [List.getElem?_set_ne (fun hh => hjw hh.symm)]
                  exact hj, hxj⟩

/-- C1, amended.  When `insert_records` raises an insertion failure the
exception carries the failing queue's flushed batch followed by the
submitted records from the first occurrence of the failing record
onward; records routed to other queues merely stay resident there.  For
a table without a primary key (so the dedup layer never drops or
replaces a record), every submitted record therefore ends up either in
the exception's carried records, among the records committed and
counted as inserted/updated, or still resident in a worker queue —
carried and committed records alone need not cover the submission. -/
theorem c1_lossless_amended (routeOf : Nat → Nat) (pkKeyOf : Nat → RKey)
    (client : Nat → List Nat → Option (Nat × Nat)) (records : List Nat)
    (ing : Ingestor)
    (hq : ∀ wq ∈ ing.queues, wq.has_primary_key = false)
    (hroute : ∀ r ∈ records, routeOf r < ing.queues.length)
    (x : Nat) (hx : x ∈ records) :
    x ∈ (insertRecords routeOf pkKeyOf client ing records).1.getD [] ++
          (insertRecords routeOf pkKeyOf client ing records).2.committed ∨
    ∃ (j : Nat) (wq : WorkerQueue Nat),
      (insertRecords routeOf pkKeyOf client ing records).2.queues[j]? = some wq ∧
        x ∈ wq.record_queue := by
  unfold insertRecords
  exact insertRecordsFrom_accounts routeOf pkKeyOf client records records [] ing
    (by simp) hq hroute x (.inl hx)

/-- C1, witness.  In the two-worker failing run on [0,1,2], record 1 is
covered: it sits in worker 1's queue of the final state. -/
theorem c1_lossless_amended_witness :
    (1 : Nat) ∈ (insertRecords (fun r => r % 2) (fun _ => ⟨0, false⟩)
        (fun _ _ => none)
        ⟨[freshQ Nat 2 false false, freshQ Nat 2 false false], 0, 0, []⟩
        [0, 1, 2]).1.getD [] ++
      (insertRecords (fun r => r % 2) (fun _ => ⟨0, false⟩) (fun _ _ => none)
        ⟨[freshQ Nat 2 false false, freshQ Nat 2 false false], 0, 0, []⟩
        [0, 1, 2]).2.committed ∨
    ∃ (j : Nat) (wq : WorkerQueue Nat),
      (insertRecords (fun r => r % 2) (fun _ => ⟨0, false⟩) (fun _ _ => none)
        ⟨[freshQ Nat 2 false false, freshQ Nat 2 false false], 0, 0, []⟩
        [0, 1, 2]).2.queues[j]? = some wq ∧ (1 : Nat) ∈ wq.record_queue :=
  c1_lossless_amended (fun r => r % 2) (fun _ => ⟨0, false⟩) (fun _ _ => none)
    [0, 1, 2] ⟨[freshQ Nat 2 false false, freshQ Nat 2 false false], 0, 0, []⟩
    (by decide) (by decide) 1 (by decide)

/-- C1, counterexample.  Two workers with capacity-2 queues, records
routed by parity, every insert RPC failing: submitting [0,1,2] sends 0
and 2 to worker 0 and 1 to worker 1; worker 0's queue fills and its
flush fails, so the exception carries [0,2,2] (the batch plus the
submitted list from the first occurrence of the failing record 2) and
nothing was committed — record 1, still queued at worker 1, is in
neither, so the union of carried and committed records is not the
submitted list. -/
theorem c1_lossless_counterexample :
    (insertRecords (fun r => r % 2) (fun _ => ⟨0, false⟩) (fun _ _ => none)
        ⟨[freshQ Nat 2 false false, freshQ Nat 2 false false], 0, 0, []⟩
        [0, 1, 2]).1 = some [0, 2, 2] ∧
    (insertRecords (fun r => r % 2) (fun _ => ⟨0, false⟩) (fun _ _ => none)
        ⟨[freshQ Nat 2 false false, freshQ Nat 2 false false], 0, 0, []⟩
        [0, 1, 2]).2.committed = [] ∧
    (1 : Nat) ∈ ([0, 1, 2] : List Nat) ∧
    (1 : Nat) ∉ ([0, 2, 2] : List Nat) ++ ([] : List Nat) := by
  refine ⟨by decide, by decide, by decide, by decide⟩

/-- C5, counterexample.  For the key whose Murmur3 low-64 has the signed
64-bit bit pattern 0x8000000000000001 — the signed value -(2^63 - 1) —
the routing index over a four-entry table is `abs(-(2^63-1)) % 4 = 3`,
not 1 as the claim states (clearing the sign bit would give 1, but the
source takes the exact absolute value). -/
theorem c5_route_counterexample :
    routingIndex (toSigned64 0x8000000000000001) 4 = 3 ∧
    routingIndex (toSigned64 0x8000000000000001) 4 ≠ 1 := by
  constructor <;> decide

/-- C5, amended.  For that key and the routing table [0,1,0,1], the
routing index is 3 (two's-complement absolute value, no sign-bit
masking since the value is not INT64_MIN) and the returned worker index
is `shardMap[3] = 1` — the same worker the claim names, reached through
index 3 rather than 1. -/
theorem c5_route_amended :
    route (toSigned64 0x8000000000000001) [0, 1, 0, 1] = 1 ∧
    routingIndex (toSigned64 0x8000000000000001) 4 = 3 := by
  constructor <;> decide

/-- C6.  The charN appender, for a non-null ASCII value of length at most
N (given room in the buffer), appends exactly `N - len` NUL bytes
followed by the value's bytes reversed; for null it appends N NULs; in
particular char4 of "abcd" gives bytes [0x64,0x63,0x62,0x61] and char4
of "ab" gives [0x00,0x00,0x62,0x61]. -/
theorem c6_charN :
    (∀ (rk : RecordKey) (v : List Nat) (N : Nat), v.length ≤ N →
        rk.buffer_value.length + N ≤ rk.buffer_size →
        add_charN rk (some v) N =
          .ok { rk with buffer_value :=
                  rk.buffer_value ++ (List.replicate (N - v.length) 0 ++ v.reverse) }) ∧
    (∀ (rk : RecordKey) (N : Nat), rk.buffer_value.length + N ≤ rk.buffer_size →
        add_charN rk none N =
          .ok { rk with buffer_value := rk.buffer_value ++ List.replicate N 0 }) ∧
    add_charN (mkRecordKey 4) (some [0x61, 0x62, 0x63, 0x64]) 4 =
      .ok ⟨4, [0x64, 0x63, 0x62, 0x61], true⟩ ∧
    add_charN (mkRecordKey 4) (some [0x61, 0x62]) 4 =
      .ok ⟨4, [0x00, 0x00, 0x62, 0x61], true⟩ := by
  refine ⟨?_, ?_, by decide, by decide⟩
  · intro rk v N hlen hroom
    have hA : ¬(v ≠ [] ∧ N < v.length) := fun h => absurd h.2 (by omega)
    have hB : willOverflow rk N = false := by
      simp only [willOverflow, decide_eq_false_iff_not, not_lt]
      omega
    simp [add_charN, hA, hB]
  · intro rk N hroom
    have hB : willOverflow rk N = false := by
      simp only [willOverflow, decide_eq_false_iff_not, not_lt]
      omega
    simp [add_charN, hB]

/-- C6, witness.  char8 of the one-byte value [0x41] appends seven NULs
then the byte. -/
theorem c6_charN_witness :
    add_charN (mkRecordKey 8) (some [0x41]) 8 =
      .ok { mkRecordKey 8 with buffer_value :=
              (mkRecordKey 8).buffer_value ++
                (List.replicate (8 - [0x41].length) 0 ++ [0x41].reverse) } ∧
    add_charN (mkRecordKey 8) none 8 =
      .ok { mkRecordKey 8 with buffer_value :=
              (mkRecordKey 8).buffer_value ++ List.replicate 8 0 } :=
  ⟨c6_charN.1 (mkRecordKey 8) [0x41] 8 (by decide) (by decide),
   c6_charN.2.1 (mkRecordKey 8) 8 (by decide)⟩

/-- C7, counterexample.  A char4 value of five bytes makes `add_charN`
raise `GPUdbException` (modelled as an error); it does not write four
zero bytes with the validity flag cleared, so key building does not
complete and the record does not flow. -/
theorem c7_charN_overflow_counterexample :
    add_charN (mkRecordKey 4) (some [97, 98, 99, 100, 101]) 4 =
      .error .charTooLong ∧
    add_charN (mkRecordKey 4) (some [97, 98, 99, 100, 101]) 4 ≠
      .ok ⟨4, List.replicate 4 0, false⟩ := by
  constructor <;> decide

/-- C7, amended.  For every non-empty charN value whose encoding exceeds
N bytes, the appender raises an exception (the source's "CharN given too
long a value" `GPUdbException`) before writing anything: the buffer is
not zero-filled, the validity flag is not cleared, and key building
aborts instead of letting the record flow. -/
theorem c7_charN_overflow_amended (rk : RecordKey) (v : List Nat) (N : Nat)
    (hne : v ≠ []) (hlen : N < v.length) :
    add_charN rk (some v) N = .error .charTooLong := by
  simp [add_charN, hne, hlen]

/-- C7, witness.  A three-byte value overflows char2. -/
theorem c7_charN_overflow_witness :
    add_charN (mkRecordKey 2) (some [65, 66, 67]) 2 = .error .charTooLong :=
  c7_charN_overflow_amended (mkRecordKey 2) [65, 66, 67] 2 (by decide) (by decide)

/-- C8, counterexample.  The ipv4 appender applied to "127.0.0.1" packs
the integer `(127<<24)|1 = 0x7F000001` little-endian, so the appended
bytes are [0x01,0x00,0x00,0x7F] — not [0x7F,0x00,0x00,0x01] as the claim
states. -/
theorem c8_ipv4_counterexample :
    add_ipv4 (mkRecordKey 4)
        (some ['1', '2', '7', '.', '0', '.', '0', '.', '1']) =
      .ok ⟨4, [0x01, 0x00, 0x00, 0x7F], true⟩ ∧
    ([0x01, 0x00, 0x00, 0x7F] : List Nat) ≠ [0x7F, 0x00, 0x00, 0x01] := by
  constructor <;> decide

/-- C8, amended.  The ipv4 appender applied to "127.0.0.1" appends the
four bytes [0x01,0x00,0x00,0x7F]: the little-endian encoding of the
32-bit integer `(127<<24)|(0<<16)|(0<<8)|1 = 0x7F000001`. -/
theorem c8_ipv4_amended :
    add_ipv4 (mkRecordKey 4)
        (some ['1', '2', '7', '.', '0', '.', '0', '.', '1']) =
      .ok ⟨4, packLE4 0x7F000001, true⟩ ∧
    packLE4 0x7F000001 = [0x01, 0x00, 0x00, 0x7F] := by
  constructor <;> decide

/-- C9.  For the track-type record type with columns TRACKID:string,
TIMESTAMP:long, x:double, y:double and no explicit shard-key property,
the builder synthesizes the one-column TRACKID key (index 0) but its
schema descriptor carries the name and type of the last iterated column
— ("y","double") — not the TRACKID column's own ("TRACKID","string")
as the claim (and the spec's stated intent) requires. -/
theorem c9_track_type_descriptor :
    builderKeys
        [⟨"TRACKID", "string", []⟩, ⟨"TIMESTAMP", "long", []⟩,
         ⟨"x", "double", []⟩, ⟨"y", "double", []⟩] false =
      .ok ([0], [("y", "double")]) ∧
    (("y", "double") : String × String) ≠ ("TRACKID", "string") := by
  constructor <;> decide

/-- C2, counterexample.  With two workers, a shard rank of 3 becomes the
stored entry 2: the construction succeeds (2 is not strictly greater
than `num_workers = 2`) yet the entry is not below `num_workers`; a
shard rank of 0 likewise becomes the stored entry -1, which is negative.
So the stored map can hold entries outside `[0, num_workers)` without
construction failing. -/
theorem c2_shard_map_counterexample :
    setRoutingTable [3] 2 = .ok [2] ∧ ¬((2 : Int) < (2 : Int)) ∧
    setRoutingTable [0] 2 = .ok [-1] ∧ ¬((0 : Int) ≤ (-1 : Int)) := by
  refine ⟨by decide, by decide, by decide, by decide⟩

/-- C2, amended.  After a successful construction the stored shard map is
the rank list with each entry decremented, and every entry e satisfies
`e ≤ num_workers`; construction fails exactly when some decremented
entry strictly exceeds `num_workers`.  Entries equal to `num_workers`
and negative entries are accepted, so `0 ≤ e < num_workers` is not
guaranteed. -/
theorem c2_shard_map_amended :
    (∀ (ranks : List Int) (n : Nat) (table : List Int),
        setRoutingTable ranks n = .ok table →
        table = ranks.map (fun r => r - 1) ∧ ∀ e ∈ table, e ≤ (n : Int)) ∧
    (∀ (ranks : List Int) (n : Nat),
        (∃ e ∈ ranks.map (fun r => r - 1), (n : Int) < e) →
        setRoutingTable ranks n = .error "Not enough worker URLs specified.") := by
  constructor
  · intro ranks n table hok
    simp only [setRoutingTable] at hok
    split at hok
    · rename_i hall
      cases hok
      refine ⟨rfl, ?_⟩
      intro e he
      simpa using List.all_eq_true.mp hall e he
    · cases hok
  · intro ranks n ⟨e, he, hgt⟩
    simp only [setRoutingTable]
    rw [if_neg]
    intro hall
    have := List.all_eq_true.mp hall e he
    simp at this
    omega

/-- C2, witness.  Ranks [1,2] with two workers give the stored map
[0,1], inside the bound; rank 4 with two workers is rejected. -/
theorem c2_shard_map_witness :
    (([0, 1] : List Int) = [1, 2].map (fun r => r - 1) ∧
      ∀ e ∈ ([0, 1] : List Int), e ≤ ((2 : Nat) : Int)) ∧
    setRoutingTable [4] 2 = .error "Not enough worker URLs specified." :=
  ⟨c2_shard_map_amended.1 [1, 2] 2 [0, 1] (by decide),
   c2_shard_map_amended.2 [4] 2 ⟨3, by decide, by decide⟩⟩

end GpudbMultihead
